import Mathlib

/-!
Verification of `js-source-extractor` (`src/index.js`) against its
natural-language specification.  The per-entry pipeline of
`extractSourceMap` (path sanitisation, prefix handling, parent-segment
rewriting, content resolution with error placeholders, zip insertion with
overwrite, manifest detection) and the status handling of `fetchUrl` are
embedded as executable Lean functions, and the spec's claims are settled
as theorems about those functions.
-/

namespace JsSourceExtractor

/-! ## Character and string helpers (JS `String.prototype` operations) -/

/-- Does the character match the regex class from
`source.replace(/[<>:"|?*]/g, '_')` in `src/index.js` line 182. -/
def illegalChar (c : Char) : Bool :=
  c == '<' || c == '>' || c == ':' || c == '"' || c == '|' || c == '?' || c == '*'

/-- The global replacement of illegal characters by underscores,
`source.replace(/[<>:"|?*]/g, '_')`. -/
def sanitizeChars (s : List Char) : List Char :=
  s.map (fun c => if illegalChar c then '_' else c)

/-- JS `String.prototype.startsWith` on character lists. -/
def leadsWith : List Char → List Char → Bool
  | [], _ => true
  | _ :: _, [] => false
  | p :: ps, c :: cs => p == c && leadsWith ps cs

/-- Does `pat` occur (contiguously) anywhere in the list; JS
`String.prototype.includes`. -/
def occursWithin (pat : List Char) : List Char → Bool
  | [] => leadsWith pat []
  | c :: cs => leadsWith pat (c :: cs) || occursWithin pat cs

/-- JS `s.includes(pat)` on strings. -/
def strContains (s pat : String) : Bool :=
  occursWithin pat.data s.data

/-- Global left-to-right non-overlapping replacement of `../` by `parent/`,
the JS `cleanPath.replace(/\.\.\//g, 'parent/')` of `src/index.js`
line 190. -/
def replaceDotDotAux : List Char → List Char
  | '.' :: '.' :: '/' :: rest =>
    'p' :: 'a' :: 'r' :: 'e' :: 'n' :: 't' :: '/' :: replaceDotDotAux rest
  | c :: rest => c :: replaceDotDotAux rest
  | [] => []

/-- The characters of the literal `'webpack://./'`. -/
def webpackPfx : List Char :=
  ['w', 'e', 'b', 'p', 'a', 'c', 'k', ':', '/', '/', '.', '/']

/-- The path clean-up of `src/index.js` lines 182–196 on character lists:
illegal-character substitution, then the `webpack://./` / `./` / `../`
branch chain, then the strip of one leading `/`. -/
def normChars (s : List Char) : List Char :=
  let c1 := sanitizeChars s
  let c2 :=
    if leadsWith webpackPfx c1 then c1.drop 12
    else if leadsWith ['.', '/'] c1 then c1.drop 2
    else if leadsWith ['.', '.', '/'] c1 then replaceDotDotAux c1
    else c1
  if leadsWith ['/'] c2 then c2.drop 1 else c2

/-- The path normalizer: the `cleanPath` computation of `src/index.js`
lines 182–196, as a function from raw source identifier to archive path. -/
def normalize (s : String) : String :=
  String.mk (normChars s.data)

/-! ## Fetch collaborator (`fetchUrl`, `src/index.js` lines 26–48) -/

/-- Outcome of one fetch: body on success, message on rejection. -/
inductive FetchResult where
  | ok (body : String)
  | err (msg : String)
deriving DecidableEq

/-- What the network does for one request: a response with a status code
and body, a connection error, or a timeout. -/
inductive HttpEvent where
  | response (status : Nat) (body : String)
  | netError (msg : String)
  | timeout
deriving DecidableEq

/-- The rejection condition of `src/index.js` line 32:
`res.statusCode < 200 || res.statusCode >= 300`. -/
def statusRejected (status : Nat) : Bool :=
  status < 200 || 300 ≤ status

/-- `fetchUrl` of `src/index.js` lines 26–48: given the network's
behaviour for each url, resolve with the body on a 2xx response and
reject otherwise. -/
def fetchUrl (net : String → HttpEvent) (url : String) : FetchResult :=
  match net url with
  | .response st body =>
    if statusRejected st then .err ("HTTP error! status: " ++ toString st)
    else .ok body
  | .netError m => .err m
  | .timeout => .err "Request timeout"

/-! ## Content resolution (`src/index.js` lines 166–179) -/

/-- Content for one source entry: embedded content verbatim when present,
otherwise the fetched body, otherwise the error-placeholder text
`// Error fetching source: <source>\n// <message>`. -/
def resolveContent (fetch : String → FetchResult) (src : String)
    (emb : Option String) : String :=
  match emb with
  | some c => c
  | none =>
    match fetch src with
    | .ok b => b
    | .err m => "// Error fetching source: " ++ src ++ "\n// " ++ m

/-! ## Archive tree (`zip.file`, `src/index.js` line 198) -/

/-- `zip.file(path, content)`: a later entry with an existing path
replaces that path's content in place; a new path is appended. -/
def insertEntry (tree : List (String × String)) (k v : String) :
    List (String × String) :=
  if tree.any (fun e => e.1 == k) then
    tree.map (fun e => if e.1 == k then (k, v) else e)
  else
    tree ++ [(k, v)]

/-- The paths present in an archive tree. -/
def keysOf (tree : List (String × String)) : List String :=
  tree.map Prod.fst

/-! ## Orchestrator (`extractSourceMap`, `src/index.js` lines 136–214) -/

/-- A parsed source map document: the `sources` list and the parallel
`sourcesContent` list (`none` marks absent content). -/
structure MapDoc where
  sources : List String
  sourcesContent : List (Option String)
deriving DecidableEq

/-- Pair each source with the content at the same index
(`consumer.sourceContentFor` for entry `i`); a missing tail of
`sourcesContent` (or its complete absence) marks those entries absent. -/
def pairEntries : List String → List (Option String) → List (String × Option String)
  | [], _ => []
  | s :: ss, [] => (s, none) :: pairEntries ss []
  | s :: ss, c :: cs => (s, c) :: pairEntries ss cs

/-- The per-entry work list, in `sources` order: each raw identifier
paired with its embedded content or its absence. -/
def entriesOf (doc : MapDoc) : List (String × Option String) :=
  pairEntries doc.sources doc.sourcesContent

/-- The loop of `src/index.js` lines 163–199, restricted to the archive:
resolve each entry's content and insert it at its normalized path. -/
def buildTree (fetch : String → FetchResult) :
    List (String × Option String) → List (String × String) → List (String × String)
  | [], tree => tree
  | (src, emb) :: rest, tree =>
    buildTree fetch rest (insertEntry tree (normalize src) (resolveContent fetch src emb))

/-- The failures the same loop records (the `console.warn` branch of
`src/index.js` line 176): each source whose content is absent and whose
fetch rejects, with the rejection message. -/
def failuresOf (fetch : String → FetchResult) :
    List (String × Option String) → List (String × String)
  | [] => []
  | (src, emb) :: rest =>
    match emb with
    | some _ => failuresOf fetch rest
    | none =>
      match fetch src with
      | .ok _ => failuresOf fetch rest
      | .err m => (src, m) :: failuresOf fetch rest

/-- The archive plus the summary data the run reports: the zip tree, the
detected `package.json` identifiers, and the per-source fetch failures. -/
structure ExtractResult where
  tree : List (String × String)
  manifestFiles : List String
  failedSources : List (String × String)
deriving DecidableEq

/-- `extractSourceMap`'s per-map work (`src/index.js` lines 146–199):
manifest detection by `source.includes('package.json')`, then the
resolution-and-insertion loop over `sources` in order. -/
def extractSourceMap (fetch : String → FetchResult) (doc : MapDoc) : ExtractResult :=
  { tree := buildTree fetch (entriesOf doc) []
    manifestFiles := doc.sources.filter (fun s => strContains s "package.json")
    failedSources := failuresOf fetch (entriesOf doc) }

/-! ## Whole-run outcome (`src/index.js` lines 136–214) -/

/-- Outcome of one `extractSourceMap` invocation: the catch branch
(`console.error` + `process.exit(1)`) or a completed run with its
written archive and summary. -/
inductive RunOutcome where
  | fatalExit (msg : String)
  | completed (result : ExtractResult)
deriving DecidableEq

/-- The whole of `extractSourceMap` including its `try`/`catch`: fetching
the map document, parsing it, extracting, and writing the archive; any
failure of those steps reaches the catch and aborts the run. -/
def runExtraction (mapFetch : FetchResult) (parse : String → Except String MapDoc)
    (fetch : String → FetchResult)
    (write : List (String × String) → Option String) : RunOutcome :=
  match mapFetch with
  | .err m => .fatalExit m
  | .ok raw =>
    match parse raw with
    | .error m => .fatalExit m
    | .ok doc =>
      let r := extractSourceMap fetch doc
      match write r.tree with
      | some werr => .fatalExit werr
      | none => .completed r

/-! ## Helper lemmas about the string primitives -/

theorem leadsWith_cons (p : Char) (ps : List Char) (c : Char) (cs : List Char) :
    leadsWith (p :: ps) (c :: cs) = ((p == c) && leadsWith ps cs) := rfl

theorem occursWithin_cons (pat : List Char) (c : Char) (cs : List Char) :
    occursWithin pat (c :: cs) = (leadsWith pat (c :: cs) || occursWithin pat cs) := rfl

theorem leadsWith_cons_elim {p : Char} {ps l : List Char}
    (h : leadsWith (p :: ps) l = true) : ∃ t, l = p :: t ∧ leadsWith ps t = true := by
  match l with
  | [] => simp [leadsWith] at h
  | c :: cs =>
    rw [leadsWith_cons, Bool.and_eq_true, beq_iff_eq] at h
    exact ⟨cs, by rw [h.1], h.2⟩

/-- One-step unfolding of `replaceDotDotAux` in guard form. -/
theorem replaceDotDotAux_cons (c : Char) (rest : List Char) :
    replaceDotDotAux (c :: rest) =
      if c == '.' && leadsWith ['.', '/'] rest then
        'p' :: 'a' :: 'r' :: 'e' :: 'n' :: 't' :: '/' :: replaceDotDotAux (rest.drop 2)
      else c :: replaceDotDotAux rest := by
  by_cases hc : c = '.'
  · subst hc
    match rest with
    | [] => simp [replaceDotDotAux, leadsWith]
    | d :: rest' =>
      by_cases hd : d = '.'
      · subst hd
        match rest' with
        | [] => simp [replaceDotDotAux, leadsWith]
        | e :: t =>
          by_cases he : e = '/'
          · subst he
            simp [replaceDotDotAux, leadsWith]
          · have he2 : ('/' : Char) ≠ e := fun hx => he hx.symm
            have step : replaceDotDotAux ('.' :: '.' :: e :: t) =
                '.' :: replaceDotDotAux ('.' :: e :: t) :=
              replaceDotDotAux.eq_2 _ _ (by
                intro r1 _ hx
                simp only [List.cons.injEq] at hx
                exact he hx.2.1)
            simp [step, leadsWith, he2]
      · have hd2 : ('.' : Char) ≠ d := fun hx => hd hx.symm
        have step : replaceDotDotAux ('.' :: d :: rest') =
            '.' :: replaceDotDotAux (d :: rest') :=
          replaceDotDotAux.eq_2 _ _ (by
            intro r1 _ hx
            simp only [List.cons.injEq] at hx
            exact hd hx.1)
        simp [step, leadsWith, hd2]
  · simp [replaceDotDotAux, leadsWith, hc]

theorem replaceDotDot_nil : replaceDotDotAux [] = [] := rfl

/-- The rewrite never makes its output begin with `/` unless the input
already did. -/
theorem slash_of_replaceDotDot (l : List Char)
    (h : leadsWith ['/'] (replaceDotDotAux l) = true) : leadsWith ['/'] l = true := by
  match l with
  | [] => rw [replaceDotDot_nil] at h; simp [leadsWith] at h
  | c :: rest =>
    rw [replaceDotDotAux_cons] at h
    by_cases hg : (c == '.' && leadsWith ['.', '/'] rest) = true
    · rw [if_pos hg] at h
      simp [leadsWith] at h
    · rw [if_neg hg] at h
      rw [leadsWith_cons] at h ⊢
      simpa [leadsWith] using h

/-- The rewrite never makes its output begin with `./` unless the input
already did. -/
theorem dotSlash_of_replaceDotDot (l : List Char)
    (h : leadsWith ['.', '/'] (replaceDotDotAux l) = true) :
    leadsWith ['.', '/'] l = true := by
  match l with
  | [] => rw [replaceDotDot_nil] at h; simp [leadsWith] at h
  | c :: rest =>
    rw [replaceDotDotAux_cons] at h
    by_cases hg : (c == '.' && leadsWith ['.', '/'] rest) = true
    · rw [if_pos hg] at h
      simp [leadsWith] at h
    · rw [if_neg hg] at h
      rw [leadsWith_cons, Bool.and_eq_true] at h ⊢
      exact ⟨h.1, slash_of_replaceDotDot rest h.2⟩

/-- The output of the rewrite never begins with `../`. -/
theorem replaceDotDot_not_lead (l : List Char) :
    leadsWith ['.', '.', '/'] (replaceDotDotAux l) = false := by
  match l with
  | [] => rw [replaceDotDot_nil]; simp [leadsWith]
  | c :: rest =>
    rw [replaceDotDotAux_cons]
    by_cases hg : (c == '.' && leadsWith ['.', '/'] rest) = true
    · rw [if_pos hg]
      simp [leadsWith]
    · rw [if_neg hg]
      rw [leadsWith_cons]
      cases hc : ('.' == c) with
      | false => simp
      | true =>
        simp only [Bool.true_and]
        by_contra hne
        rw [Bool.not_eq_false] at hne
        have hr := dotSlash_of_replaceDotDot rest hne
        rw [beq_iff_eq] at hc
        exact hg (by rw [← hc, beq_self_eq_true, Bool.true_and]; exact hr)

/-- The output of the rewrite contains no `../` occurrence at all. -/
theorem replaceDotDot_no_dds (l : List Char) :
    occursWithin ['.', '.', '/'] (replaceDotDotAux l) = false := by
  match l with
  | [] => rw [replaceDotDot_nil]; simp [occursWithin, leadsWith]
  | c :: rest =>
    by_cases hg : (c == '.' && leadsWith ['.', '/'] rest) = true
    · rw [replaceDotDotAux_cons, if_pos hg]
      have ih := replaceDotDot_no_dds (rest.drop 2)
      simp [occursWithin_cons, leadsWith_cons, leadsWith, ih]
    · have hl := replaceDotDot_not_lead (c :: rest)
      rw [replaceDotDotAux_cons, if_neg hg] at hl ⊢
      have ih := replaceDotDot_no_dds rest
      rw [occursWithin_cons, hl, ih, Bool.or_self]
termination_by l.length
decreasing_by
  · simp; omega
  · simp

/-! ## Helper lemmas about the archive builder and orchestrator -/

theorem map_fst_replace (tree : List (String × String)) (k v : String) :
    (tree.map (fun e => if e.1 == k then (k, v) else e)).map Prod.fst =
      tree.map Prod.fst := by
  rw [List.map_map]
  apply List.map_congr_left
  intro e _
  by_cases hek : (e.1 == k) = true
  · rw [beq_iff_eq] at hek
    simp [hek]
  · simp only [beq_iff_eq] at hek
    simp [hek]

theorem keysOf_insertEntry (tree : List (String × String)) (k v m : String) :
    m ∈ keysOf (insertEntry tree k v) ↔ (m ∈ keysOf tree ∨ m = k) := by
  unfold insertEntry keysOf
  by_cases h : tree.any (fun e => e.1 == k) = true
  · rw [if_pos h]
    rw [map_fst_replace]
    constructor
    · exact Or.inl
    · rintro (hm | rfl)
      · exact hm
      · rw [List.any_eq_true] at h
        obtain ⟨e, he, hek⟩ := h
        rw [beq_iff_eq] at hek
        exact hek ▸ List.mem_map_of_mem Prod.fst he
  · rw [if_neg h]
    simp

theorem keysOf_insertEntry_nodup (tree : List (String × String)) (k v : String)
    (h : (keysOf tree).Nodup) : (keysOf (insertEntry tree k v)).Nodup := by
  unfold insertEntry keysOf
  by_cases ha : tree.any (fun e => e.1 == k) = true
  · rw [if_pos ha]
    rw [map_fst_replace]
    exact h
  · rw [if_neg ha]
    rw [List.map_append]
    apply h.append (by simp)
    intro x hx hxk
    rw [List.map_singleton, List.mem_singleton] at hxk
    subst hxk
    unfold keysOf at hx
    rw [List.mem_map] at hx
    obtain ⟨e, he, hek⟩ := hx
    exact ha (List.any_eq_true.mpr ⟨e, he, by rw [beq_iff_eq]; exact hek⟩)

theorem keysOf_buildTree (fetch : String → FetchResult)
    (entries : List (String × Option String)) :
    ∀ (tree : List (String × String)) (m : String),
      m ∈ keysOf (buildTree fetch entries tree) ↔
        (m ∈ keysOf tree ∨ m ∈ entries.map (fun p => normalize p.1)) := by
  induction entries with
  | nil => simp [buildTree]
  | cons p rest ih =>
    intro tree m
    obtain ⟨src, emb⟩ := p
    rw [show buildTree fetch ((src, emb) :: rest) tree =
        buildTree fetch rest (insertEntry tree (normalize src) (resolveContent fetch src emb))
      from rfl]
    rw [ih, keysOf_insertEntry]
    simp only [List.map_cons, List.mem_cons]
    tauto

theorem keysOf_buildTree_nodup (fetch : String → FetchResult)
    (entries : List (String × Option String)) :
    ∀ tree : List (String × String),
      (keysOf tree).Nodup → (keysOf (buildTree fetch entries tree)).Nodup := by
  induction entries with
  | nil => intro tree h; exact h
  | cons p rest ih =>
    intro tree h
    obtain ⟨src, emb⟩ := p
    exact ih _ (keysOf_insertEntry_nodup _ _ _ h)

theorem buildTree_fetch_irrel (f₁ f₂ : String → FetchResult)
    (entries : List (String × Option String))
    (h : ∀ p ∈ entries, p.2 ≠ (none : Option String)) :
    ∀ tree : List (String × String),
      buildTree f₁ entries tree = buildTree f₂ entries tree := by
  induction entries with
  | nil => intro tree; rfl
  | cons p rest ih =>
    intro tree
    obtain ⟨src, emb⟩ := p
    match emb with
    | some c =>
      show buildTree f₁ rest _ = buildTree f₂ rest _
      exact ih (fun q hq => h q (List.mem_cons_of_mem _ hq)) _
    | none => exact absurd rfl (h (src, none) (List.mem_cons_self _ _))

theorem failuresOf_all_embedded (fetch : String → FetchResult)
    (entries : List (String × Option String))
    (h : ∀ p ∈ entries, p.2 ≠ (none : Option String)) :
    failuresOf fetch entries = [] := by
  induction entries with
  | nil => rfl
  | cons p rest ih =>
    obtain ⟨src, emb⟩ := p
    match emb with
    | some c =>
      show failuresOf fetch rest = []
      exact ih (fun q hq => h q (List.mem_cons_of_mem _ hq))
    | none => exact absurd rfl (h (src, none) (List.mem_cons_self _ _))

theorem failuresOf_mem (fetch : String → FetchResult)
    (entries : List (String × Option String)) (src m : String)
    (hmem : (src, (none : Option String)) ∈ entries) (hf : fetch src = .err m) :
    (src, m) ∈ failuresOf fetch entries := by
  induction entries with
  | nil => cases hmem
  | cons p rest ih =>
    rcases List.mem_cons.mp hmem with hq | hq
    · rw [← hq]
      show (src, m) ∈ failuresOf fetch ((src, none) :: rest)
      show (src, m) ∈ (match (none : Option String) with
        | some _ => failuresOf fetch rest
        | none =>
          match fetch src with
          | .ok _ => failuresOf fetch rest
          | .err mm => (src, mm) :: failuresOf fetch rest)
      rw [hf]
      exact List.mem_cons_self _ _
    · obtain ⟨s, e⟩ := p
      match e with
      | some c =>
        show (src, m) ∈ failuresOf fetch rest
        exact ih hq
      | none =>
        show (src, m) ∈ (match fetch s with
          | .ok _ => failuresOf fetch rest
          | .err mm => (s, mm) :: failuresOf fetch rest)
        cases hfe : fetch s with
        | ok b => exact ih hq
        | err mm => exact List.mem_cons_of_mem _ (ih hq)

theorem pairEntries_map_fst (ss : List String) :
    ∀ cs : List (Option String),
      (pairEntries ss cs).map (fun p => normalize p.1) = ss.map normalize := by
  induction ss with
  | nil => intro cs; rfl
  | cons s ss ih =>
    intro cs
    match cs with
    | [] => simp [pairEntries, ih]
    | c :: cs => simp [pairEntries, ih]

/-! ## Claim theorems -/

/-- C1 (counterexample): for a map with `sources = ["a.js","a.js"]` and
distinct embedded contents `"A"`, `"B"`, the archive holds a single entry
`a.js` (the later content replaced the earlier) and no disambiguated
entry `a_1.js` exists, contrary to the claimed numeric-suffix policy. -/
theorem C1_suffix_counterexample :
    (extractSourceMap (fun _ => .err "unused")
        ⟨["a.js", "a.js"], [some "A", some "B"]⟩).tree = [("a.js", "B")] ∧
    "a_1.js" ∉ keysOf (extractSourceMap (fun _ => .err "unused")
        ⟨["a.js", "a.js"], [some "A", some "B"]⟩).tree := by
  decide

/-- C1 (amended): the builder does not disambiguate colliding normalized
paths: a later entry whose normalized path already exists silently
replaces that path's content, so the finished archive holds exactly one
entry per distinct normalized path — its path list is duplicate-free, and
a path is present exactly when some source normalizes to it. -/
theorem C1_overwrite_amended :
    (∀ (fetch : String → FetchResult) (doc : MapDoc),
      (keysOf (extractSourceMap fetch doc).tree).Nodup) ∧
    (∀ (fetch : String → FetchResult) (doc : MapDoc) (k : String),
      k ∈ keysOf (extractSourceMap fetch doc).tree ↔ k ∈ doc.sources.map normalize) := by
  constructor
  · intro fetch doc
    exact keysOf_buildTree_nodup fetch (entriesOf doc) [] (by simp [keysOf])
  · intro fetch doc k
    rw [show (extractSourceMap fetch doc).tree = buildTree fetch (entriesOf doc) []
      from rfl]
    rw [keysOf_buildTree]
    rw [show entriesOf doc = pairEntries doc.sources doc.sourcesContent from rfl]
    rw [pairEntries_map_fst]
    simp [keysOf]

/-- C2 (counterexample): `./../x.js` is stripped of its `./` prefix by the
else-if chain, and the `../` now at the front is left untouched because
the parent-rewrite branch was already skipped — the normalized output
still contains (indeed starts with) a `../` segment. -/
theorem C2_traversal_counterexample :
    normalize "./../x.js" = "../x.js" ∧
    strContains (normalize "./../x.js") "../" = true := by
  decide

/-- C2 (amended): only an identifier whose sanitized form starts with
`../` has its `../` occurrences rewritten to `parent/`; in that case the
rewrite is complete — no `../` survives anywhere in the normalized
output.  Identifiers whose `../` segments sit in the interior or follow a
stripped `./` prefix keep them. -/
theorem C2_rewrite_amended (s : String)
    (h : leadsWith ['.', '.', '/'] (sanitizeChars s.data) = true) :
    strContains (normalize s) "../" = false := by
  obtain ⟨t1, ht1, h1⟩ := leadsWith_cons_elim h
  obtain ⟨t2, ht2, h2⟩ := leadsWith_cons_elim h1
  have hw : leadsWith webpackPfx (sanitizeChars s.data) = false := by
    rw [ht1]
    rw [show webpackPfx = 'w' :: ['e', 'b', 'p', 'a', 'c', 'k', ':', '/', '/', '.', '/']
      from rfl]
    rw [leadsWith_cons]
    rw [show ('w' == '.') = false from rfl, Bool.false_and]
  have hds : leadsWith ['.', '/'] (sanitizeChars s.data) = false := by
    rw [ht1, ht2, leadsWith_cons, leadsWith_cons]
    rw [show ('/' == '.') = false from rfl, Bool.false_and, Bool.and_false]
  have hnotslash : leadsWith ['/'] (replaceDotDotAux (sanitizeChars s.data)) = false := by
    by_contra hcon
    rw [Bool.not_eq_false] at hcon
    have hsl := slash_of_replaceDotDot _ hcon
    rw [ht1, leadsWith_cons] at hsl
    rw [show ('/' == '.') = false from rfl, Bool.false_and] at hsl
    exact Bool.false_ne_true hsl
  show occursWithin ['.', '.', '/'] (normChars s.data) = false
  unfold normChars
  simp only [hw, hds, h, hnotslash, Bool.false_eq_true, if_false, if_true]
  exact replaceDotDot_no_dds _

/-- C2 (witness for the amended theorem): `../x.js` starts with `../`, and
its normalized form `parent/x.js` indeed contains no `../`. -/
theorem C2_rewrite_amended_witness :
    strContains (normalize "../x.js") "../" = false :=
  C2_rewrite_amended "../x.js" (by decide)

/-- C3: a source entry with absent embedded content whose fetch rejects
still lands in the archive at its normalized path and is recorded in
`failedSources`; concretely, a single failing source `missing.js` yields
the placeholder entry and exactly that identifier in `failedSources`. -/
theorem C3_placeholder_recorded :
    (∀ (fetch : String → FetchResult) (doc : MapDoc) (src m : String),
      (src, (none : Option String)) ∈ entriesOf doc → fetch src = .err m →
      normalize src ∈ keysOf (extractSourceMap fetch doc).tree ∧
      (src, m) ∈ (extractSourceMap fetch doc).failedSources) ∧
    extractSourceMap (fun _ => .err "boom") ⟨["missing.js"], [none]⟩ =
      ⟨[("missing.js", "// Error fetching source: missing.js\n// boom")], [],
        [("missing.js", "boom")]⟩ := by
  constructor
  · intro fetch doc src m hmem hf
    constructor
    · rw [show (extractSourceMap fetch doc).tree = buildTree fetch (entriesOf doc) []
        from rfl]
      rw [keysOf_buildTree]
      exact Or.inr (List.mem_map.mpr ⟨(src, none), hmem, rfl⟩)
    · exact failuresOf_mem fetch (entriesOf doc) src m hmem hf
  · decide

/-- C3 (witness): the general statement applied to the one-source map with
absent content and a failing fetch. -/
theorem C3_placeholder_recorded_witness :
    normalize "missing.js" ∈ keysOf (extractSourceMap (fun _ => .err "boom")
      ⟨["missing.js"], [none]⟩).tree ∧
    ("missing.js", "boom") ∈ (extractSourceMap (fun _ => .err "boom")
      ⟨["missing.js"], [none]⟩).failedSources :=
  C3_placeholder_recorded.1 (fun _ => .err "boom") ⟨["missing.js"], [none]⟩
    "missing.js" "boom" (by decide) rfl

/-- C4 (counterexample): a raw control character (code point 1) passes
through the normalizer unchanged — the output is not `a_b.js` and still
contains a character below 32, contrary to the claimed replacement of
every raw control character. -/
theorem C4_control_char_counterexample :
    normalize (String.mk ['a', Char.ofNat 1, 'b', '.', 'j', 's']) =
      String.mk ['a', Char.ofNat 1, 'b', '.', 'j', 's'] ∧
    (∃ c ∈ (normalize (String.mk ['a', Char.ofNat 1, 'b', '.', 'j', 's'])).data,
      c.toNat < 32) := by
  decide

/-- C4 (amended): the sanitisation replaces exactly the seven characters
`< > : " | ? *` with `_`: its output never contains one of them, a
control character (code point below 32) is never replaced, and the
spec's example equality holds. -/
theorem C4_sanitize_amended :
    (∀ l : List Char, ∀ c ∈ sanitizeChars l, illegalChar c = false) ∧
    (∀ (l : List Char) (c : Char), c ∈ l → c.toNat < 32 → c ∈ sanitizeChars l) ∧
    normalize "a<b>c:\"d|e?f*g.js" = "a_b_c__d_e_f_g.js" := by
  refine ⟨?_, ?_, by decide⟩
  · intro l c hc
    rw [sanitizeChars, List.mem_map] at hc
    obtain ⟨a, _, ha⟩ := hc
    by_cases hia : illegalChar a = true
    · rw [if_pos hia] at ha
      rw [← ha]
      decide
    · rw [Bool.not_eq_true] at hia
      rw [if_neg (by simp [hia])] at ha
      rw [← ha]
      exact hia
  · intro l c hcl hctl
    have hic : illegalChar c = false := by
      by_contra hcon
      rw [Bool.not_eq_false, illegalChar] at hcon
      simp only [Bool.or_eq_true, beq_iff_eq] at hcon
      rcases hcon with ((((((h | h) | h) | h) | h) | h) | h) <;>
        (subst h; exact absurd hctl (by decide))
    rw [sanitizeChars, List.mem_map]
    exact ⟨c, hcl, by rw [if_neg (by simp [hic])]⟩

/-- C4 (witness for the amended theorem): the control character with code
point 7 survives sanitisation. -/
theorem C4_sanitize_amended_witness :
    Char.ofNat 7 ∈ sanitizeChars [Char.ofNat 7] :=
  C4_sanitize_amended.2.1 [Char.ofNat 7] (Char.ofNat 7) (by decide) (by decide)

/-- C5 (counterexample): the empty identifier normalizes to the empty
string — there is no hashed-placeholder fallback and no guaranteed
non-empty output — and a backslash-separated identifier keeps its
backslash, so the output is not forward-slash-only. -/
theorem C5_fallback_counterexample :
    normalize "" = "" ∧ normalize "a\\b.js" = "a\\b.js" := by
  decide

/-- C5 (amended): the normalizer performs no separator conversion and has
no fallback: on any identifier free of the seven replaced characters that
starts with none of `webpack://./`, `./`, `../`, `/`, it is the
identity — backslashes and `.`/`..` segments included. -/
theorem C5_no_fallback_amended (s : String)
    (hleg : ∀ c ∈ s.data, illegalChar c = false)
    (hw : leadsWith webpackPfx s.data = false)
    (hds : leadsWith ['.', '/'] s.data = false)
    (hdds : leadsWith ['.', '.', '/'] s.data = false)
    (hsl : leadsWith ['/'] s.data = false) :
    normalize s = s := by
  have hsan : sanitizeChars s.data = s.data := by
    rw [sanitizeChars]
    rw [List.map_congr_left (g := id) (fun c hc => by rw [if_neg (by simp [hleg c hc])]; rfl)]
    exact List.map_id s.data
  rw [normalize]
  unfold normChars
  rw [hsan]
  simp only [hw, hds, hdds, hsl, Bool.false_eq_true, if_false]

/-- C5 (witness for the amended theorem): `x\y.js` passes through the
normalizer unchanged, backslash included. -/
theorem C5_no_fallback_amended_witness : normalize "x\\y.js" = "x\\y.js" :=
  C5_no_fallback_amended "x\\y.js" (by decide) (by decide) (by decide) (by decide)
    (by decide)

/-- C6: evaluation of the normalizer at the spec's three examples.  The
illegal-character substitution runs before the prefix test, turns
`webpack://./` into `webpack_//./`, and so the webpack-prefix strip never
fires: the first example yields `webpack_//./src/a.js`, not the
documented `src/a.js`; the other two example equalities hold. -/
theorem C6_webpack_branch_eval :
    normalize "webpack://./src/a.js" = "webpack_//./src/a.js" ∧
    normalize "./utils/helpers.js" = "utils/helpers.js" ∧
    normalize "../../shared/x.js" = "parent/parent/shared/x.js" := by
  decide

/-- C7: every source containing `package.json` is recorded in
`manifestFiles` whatever its resolution outcome, and a sources list
containing `lib/package.json` once records it exactly once. -/
theorem C7_manifest_recorded :
    (∀ (fetch : String → FetchResult) (doc : MapDoc) (s : String),
      s ∈ doc.sources → strContains s "package.json" = true →
      s ∈ (extractSourceMap fetch doc).manifestFiles) ∧
    (extractSourceMap (fun _ => .err "u")
        ⟨["app.js", "lib/package.json"], [some "X", some "Y"]⟩).manifestFiles.count
      "lib/package.json" = 1 := by
  constructor
  · intro fetch doc s hs hc
    show s ∈ doc.sources.filter (fun s => strContains s "package.json")
    exact List.mem_filter.mpr ⟨hs, hc⟩
  · decide

/-- C7 (witness): the general statement applied to the concrete map. -/
theorem C7_manifest_recorded_witness :
    "lib/package.json" ∈ (extractSourceMap (fun _ => .err "u")
      ⟨["app.js", "lib/package.json"], [some "X", some "Y"]⟩).manifestFiles :=
  C7_manifest_recorded.1 (fun _ => .err "u")
    ⟨["app.js", "lib/package.json"], [some "X", some "Y"]⟩ "lib/package.json"
    (by decide) (by decide)

/-- C8: on a map whose entries all carry embedded content, the extraction
result does not depend on the fetch collaborator at all — two runs under
arbitrary (even differing) network behaviour produce identical archive
trees and summaries. -/
theorem C8_embedded_deterministic (f₁ f₂ : String → FetchResult) (doc : MapDoc)
    (h : ∀ p ∈ entriesOf doc, p.2 ≠ (none : Option String)) :
    extractSourceMap f₁ doc = extractSourceMap f₂ doc := by
  have ht := buildTree_fetch_irrel f₁ f₂ (entriesOf doc) h []
  have hf1 := failuresOf_all_embedded f₁ (entriesOf doc) h
  have hf2 := failuresOf_all_embedded f₂ (entriesOf doc) h
  simp only [extractSourceMap, ht, hf1, hf2]

/-- C8 (witness): a fully embedded one-source map extracted under an
always-failing and an always-succeeding network gives equal results. -/
theorem C8_embedded_deterministic_witness :
    extractSourceMap (fun _ => .err "offline") ⟨["a.js"], [some "X"]⟩ =
    extractSourceMap (fun _ => .ok "from network") ⟨["a.js"], [some "X"]⟩ :=
  C8_embedded_deterministic (fun _ => .err "offline") (fun _ => .ok "from network")
    ⟨["a.js"], [some "X"]⟩ (by decide)

/-- C9: a failed map fetch, a failed parse, or a failed archive write each
abort the whole run with a fatal outcome carrying the error message, and
a fatal outcome is distinguishable from (never equal to) a completed one,
so no archive accompanies it. -/
theorem C9_fatal_aborts :
    (∀ (parse : String → Except String MapDoc) (fetch : String → FetchResult)
        (write : List (String × String) → Option String) (m : String),
      runExtraction (.err m) parse fetch write = .fatalExit m) ∧
    (∀ (raw : String) (parse : String → Except String MapDoc)
        (fetch : String → FetchResult)
        (write : List (String × String) → Option String) (m : String),
      parse raw = .error m →
      runExtraction (.ok raw) parse fetch write = .fatalExit m) ∧
    (∀ (raw : String) (doc : MapDoc) (parse : String → Except String MapDoc)
        (fetch : String → FetchResult)
        (write : List (String × String) → Option String) (werr : String),
      parse raw = .ok doc →
      write (extractSourceMap fetch doc).tree = some werr →
      runExtraction (.ok raw) parse fetch write = .fatalExit werr) ∧
    (∀ (m : String) (r : ExtractResult),
      RunOutcome.fatalExit m ≠ RunOutcome.completed r) := by
  refine ⟨fun parse fetch write m => rfl, ?_, ?_, ?_⟩
  · intro raw parse fetch write m hp
    show (match parse raw with
      | .error m => RunOutcome.fatalExit m
      | .ok doc =>
        match write (extractSourceMap fetch doc).tree with
        | some w => RunOutcome.fatalExit w
        | none => RunOutcome.completed (extractSourceMap fetch doc)) = .fatalExit m
    rw [hp]
  · intro raw doc parse fetch write werr hp hw
    show (match parse raw with
      | .error m => RunOutcome.fatalExit m
      | .ok doc =>
        match write (extractSourceMap fetch doc).tree with
        | some w => RunOutcome.fatalExit w
        | none => RunOutcome.completed (extractSourceMap fetch doc)) = .fatalExit werr
    rw [hp]
    show (match write (extractSourceMap fetch doc).tree with
      | some w => RunOutcome.fatalExit w
      | none => RunOutcome.completed (extractSourceMap fetch doc)) = .fatalExit werr
    rw [hw]
  · intro m r hx
    exact RunOutcome.noConfusion hx

/-- C9 (witness): a run whose map document fails to parse exits fatally
with the parse error. -/
theorem C9_fatal_aborts_witness :
    runExtraction (.ok "not json") (fun _ => Except.error "invalid source map")
      (fun _ => .err "net") (fun _ => none) = .fatalExit "invalid source map" :=
  C9_fatal_aborts.2.1 "not json" (fun _ => Except.error "invalid source map")
    (fun _ => .err "net") (fun _ => none) "invalid source map" rfl

/-- C10: a response succeeds exactly when its status lies in `[200, 300)`;
any other status — a 3xx redirect included — rejects with the HTTP-error
message, and a redirect answering a missing source therefore produces the
error-placeholder content, not fetched content. -/
theorem C10_status_range :
    (∀ (net : String → HttpEvent) (url : String) (st : Nat) (body : String),
      net url = .response st body →
      ((fetchUrl net url = .ok body ↔ (200 ≤ st ∧ st < 300)) ∧
       (statusRejected st = true →
         fetchUrl net url = .err ("HTTP error! status: " ++ toString st)))) ∧
    resolveContent (fetchUrl (fun _ => .response 301 "redirect body")) "app.js" none =
      "// Error fetching source: app.js\n// HTTP error! status: 301" := by
  constructor
  · intro net url st body hnet
    have hfu : fetchUrl net url =
        (if statusRejected st then
          FetchResult.err ("HTTP error! status: " ++ toString st)
        else FetchResult.ok body) := by
      unfold fetchUrl
      rw [hnet]
    constructor
    · rw [hfu]
      by_cases hr : statusRejected st = true
      · rw [if_pos hr]
        unfold statusRejected at hr
        simp only [Bool.or_eq_true, decide_eq_true_eq] at hr
        constructor
        · intro hx
          exact FetchResult.noConfusion hx
        · intro hx
          rcases hr with hr | hr <;> omega
      · rw [if_neg hr]
        unfold statusRejected at hr
        simp only [Bool.or_eq_true, decide_eq_true_eq, not_or, Nat.not_lt,
          Nat.not_le] at hr
        exact ⟨fun _ => ⟨hr.1, hr.2⟩, fun _ => rfl⟩
    · intro hr
      rw [hfu, if_pos hr]
  · decide

/-- C10 (witness): the general statement applied to a network answering
status 301 to every request. -/
theorem C10_status_range_witness :
    fetchUrl (fun _ => HttpEvent.response 301 "redirect body") "u" =
      .err ("HTTP error! status: " ++ toString 301) :=
  (C10_status_range.1 (fun _ => HttpEvent.response 301 "redirect body") "u" 301
    "redirect body" rfl).2 (by decide)

end JsSourceExtractor
